import Mathlib

/-!
Verification of the notebook-converter OCR grouping core and geometry mapper.

The Python sources modelled here are `src/core/ocr_processor.py` and
`src/core/geometry.py`, with the constants of `src/config/defaults.py`.

Modelling conventions:
* Python `int` is `ℤ` (arbitrary precision in CPython, so no wrap-around).
* Python `float` values are the dyadic rationals they denote; wherever the
  grouping code only *compares* or *adds* already-given numbers we work in `ℚ`
  (comparisons between Python ints and floats are exact).  The geometry module
  performs genuine IEEE-754 binary64 arithmetic (`/`, `*`, `int(...)`), which
  we model exactly with `roundNE`, round-to-nearest-ties-to-even at 53 bits of
  precision (no value in range ever overflows or denormalizes for the inputs
  considered, so exponent clamping is irrelevant and not modelled).
* `dict` rows from `pytesseract.image_to_data` are modelled as a structure of
  optional parallel lists (`none` = key missing) so that the raising behaviour
  of `_extract_words` on malformed collections is captured faithfully.
-/

namespace NotebookConverter

/-! ## Constants from `src/config/defaults.py` -/

/-- `OCR_CONFIDENCE_THRESHOLD = 40` (src/config/defaults.py line 18). -/
def OCR_CONFIDENCE_THRESHOLD : ℚ := 40

/-- `LINE_MERGE_THRESHOLD_PX = 10` (src/config/defaults.py line 23). -/
def LINE_MERGE_THRESHOLD_PX : ℤ := 10

/-- `PARAGRAPH_GAP_MULTIPLIER = 1.5` (src/config/defaults.py line 24);
the Python literal `1.5` is exactly the rational 3/2. -/
def PARAGRAPH_GAP_MULTIPLIER : ℚ := 3 / 2

/-! ## Data model: words (`ocr_processor.py` word dicts) -/

/-- A surviving word dict as built by `OCRProcessor._extract_words`:
`{"text":…, "left":…, "top":…, "width":…, "height":…, "conf":…}`. -/
structure Word where
  text : String
  left : ℤ
  top : ℤ
  width : ℤ
  height : ℤ
  conf : ℚ
deriving DecidableEq, Repr

/-! ## `OCRProcessor._group_into_lines` (ocr_processor.py lines 201–246) -/

/-- The sort key comparison `key=lambda w: (w["top"], w["left"])`:
Python's `sorted` orders by the key tuple, so two words compare `≤` when
their `(top, left)` tuples do lexicographically. -/
def wordLE (a b : Word) : Prop :=
  a.top < b.top ∨ (a.top = b.top ∧ a.left ≤ b.left)

instance : DecidableRel wordLE := fun a b => by
  unfold wordLE; infer_instance

instance wordLE.isTotal : IsTotal Word wordLE where
  total a b := by unfold wordLE; omega

instance wordLE.isTrans : IsTrans Word wordLE where
  trans a b c := by unfold wordLE; omega

/-- `sorted(words, key=lambda w: (w["top"], w["left"]))`.  Python's `sorted`
is a stable sort, and every stable sort produces the same output list, so it
is modelled by stable insertion sort. -/
def sortedByTopLeft (words : List Word) : List Word :=
  words.insertionSort wordLE

/-- The comparison `key=lambda w: w["left"]`. -/
def leftLE (a b : Word) : Prop := a.left ≤ b.left

instance : DecidableRel leftLE := fun a b => by
  unfold leftLE; infer_instance

instance leftLE.isTotal : IsTotal Word leftLE where
  total a b := by unfold leftLE; omega

instance leftLE.isTrans : IsTrans Word leftLE where
  trans a b c := by unfold leftLE; omega

/-- `current_line.sort(key=lambda w: w["left"])` — stable sort by `left`. -/
def sortByLeft (line : List Word) : List Word :=
  line.insertionSort leftLE

/-- The walk of `_group_into_lines`: `current_line`/`current_y` accumulation
over the already-sorted tail.  `current_y` is the `top` of the first word
assigned to the line being built (the anchor). -/
def lineWalk : List Word → List Word → ℤ → List (List Word)
  | [], currentLine, _ =>
      -- `if current_line: current_line.sort(...); lines.append(current_line)`
      [sortByLeft currentLine]
  | w :: rest, currentLine, currentY =>
      if |w.top - currentY| < LINE_MERGE_THRESHOLD_PX then
        lineWalk rest (currentLine ++ [w]) currentY
      else
        sortByLeft currentLine :: lineWalk rest [w] w.top

/-- `OCRProcessor._group_into_lines`. -/
def groupIntoLines (words : List Word) : List (List Word) :=
  match sortedByTopLeft words with
  | [] => []
  | w0 :: rest => lineWalk rest [w0] w0.top

/-! ## `TextBlock` (ocr_processor.py lines 36–65) -/

/-- The `TextBlock` dataclass. -/
structure TextBlock where
  text : String
  left : ℤ
  top : ℤ
  width : ℤ
  height : ℤ
  confidence : ℚ
deriving DecidableEq, Repr

/-- Derived property `right = left + width`. -/
def TextBlock.right (b : TextBlock) : ℤ := b.left + b.width

/-- Derived property `bottom = top + height`. -/
def TextBlock.bottom (b : TextBlock) : ℤ := b.top + b.height

/-! ## `OCRProcessor._merge_lines_to_block` (ocr_processor.py lines 300–341) -/

/-- Python `min(...)` over a non-empty integer sequence (left fold of `min`
over the tail starting from the head; Python raises on an empty sequence,
which never happens at the call sites — the `[]` case is junk). -/
def pyMin : List ℤ → ℤ
  | [] => 0
  | x :: xs => xs.foldl min x

/-- Python `max(...)` over a non-empty integer sequence. -/
def pyMax : List ℤ → ℤ
  | [] => 0
  | x :: xs => xs.foldl max x

/-- `OCRProcessor._merge_lines_to_block`.  Python float addition/division on
confidences is modelled as exact rational arithmetic. -/
def mergeLinesToBlock (lines : List (List Word)) : TextBlock :=
  let allWords := lines.flatten
  let text := String.intercalate "\n"
    (lines.map fun line => String.intercalate " " (line.map Word.text))
  let left := pyMin (allWords.map Word.left)
  let top := pyMin (allWords.map Word.top)
  let right := pyMax (allWords.map fun w => w.left + w.width)
  let bottom := pyMax (allWords.map fun w => w.top + w.height)
  let avgConf := (allWords.map Word.conf).sum / (allWords.length : ℚ)
  { text := text, left := left, top := top, width := right - left,
    height := bottom - top, confidence := avgConf }

/-! ## `OCRProcessor._group_into_paragraphs` (ocr_processor.py lines 248–298) -/

/-- `avg_height = sum(w["height"] for w in prev_line) / len(prev_line)`. -/
def avgHeight (line : List Word) : ℚ :=
  ((line.map Word.height).sum : ℚ) / (line.length : ℚ)

/-- `threshold = avg_height * PARAGRAPH_GAP_MULTIPLIER`. -/
def parThreshold (prevLine : List Word) : ℚ :=
  avgHeight prevLine * PARAGRAPH_GAP_MULTIPLIER

/-- `prev_bottom = max(w["top"] + w["height"] for w in prev_line)`. -/
def prevBottom (line : List Word) : ℤ :=
  pyMax (line.map fun w => w.top + w.height)

/-- `curr_top = min(w["top"] for w in curr_line)`. -/
def currTop (line : List Word) : ℤ :=
  pyMin (line.map Word.top)

/-- `gap = curr_top - prev_bottom`. -/
def lineGap (prevLine currLine : List Word) : ℤ :=
  currTop currLine - prevBottom prevLine

/-- The loop of `_group_into_paragraphs`: `prev_line = lines[i-1]` is always
the line handled in the previous iteration, `accLines` is
`current_paragraph_lines`.  The comparison `gap < threshold` compares a
Python int with a float, which is exact. -/
def paragraphWalk : List Word → List (List Word) → List (List Word) → List TextBlock
  | _, accLines, [] =>
      -- `if current_paragraph_lines: paragraphs.append(merge(...))`
      [mergeLinesToBlock accLines]
  | prevLine, accLines, curr :: rest =>
      if (lineGap prevLine curr : ℚ) < parThreshold prevLine then
        paragraphWalk curr (accLines ++ [curr]) rest
      else
        mergeLinesToBlock accLines :: paragraphWalk curr [curr] rest

/-- `OCRProcessor._group_into_paragraphs`. -/
def groupIntoParagraphs : List (List Word) → List TextBlock
  | [] => []
  | l0 :: rest => paragraphWalk l0 [l0] rest

/-! ## `OCRProcessor._extract_words` (ocr_processor.py lines 159–199)

`ocr_data` is the dict returned by `pytesseract.image_to_data(...,
output_type=DICT)`: parallel lists under the keys `"text"`, `"conf"`,
`"left"`, `"top"`, `"width"`, `"height"`.  To model malformed collections, a
field is `none` when its key is missing, a `conf` entry is `none` when
`float(...)` would raise on it, and a geometry entry is `none` when
`int(...)` would raise. -/

/-- Python `str.strip()`: remove leading and trailing whitespace.  (Written
over the character list rather than with `String.trim` so that it stays
evaluable; the two agree on the whitespace classes relevant here.) -/
def pyStrip (s : String) : String :=
  ⟨((s.data.dropWhile Char.isWhitespace).reverse.dropWhile Char.isWhitespace).reverse⟩

/-- Exceptions `_extract_words` can propagate. -/
inductive PyErr where
  | keyError
  | indexError
  | valueError
deriving DecidableEq, Repr

/-- A possibly-malformed OCR data dict. -/
structure OcrData where
  text : Option (List String)
  conf : Option (List (Option ℚ))
  left : Option (List (Option ℤ))
  top : Option (List (Option ℤ))
  width : Option (List (Option ℤ))
  height : Option (List (Option ℤ))

/-- `ocr_data["key"][i]`: `KeyError` when the key is missing, `IndexError`
when the row index is out of range. -/
def getField {α : Type} (field : Option (List α)) (i : ℕ) : Except PyErr α :=
  match field with
  | none => .error .keyError
  | some l =>
    match l.get? i with
    | none => .error .indexError
    | some v => .ok v

/-- `float(v)` / `int(v)` on a possibly-malformed entry. -/
def pyConv {α : Type} (v : Option α) : Except PyErr α :=
  match v with
  | none => .error .valueError
  | some x => .ok x

/-- One iteration of the `for i in range(n_boxes)` loop of `_extract_words`.
`str(...)` never raises, and `ocr_data["text"][i]` is always in range because
`n_boxes = len(ocr_data["text"])`. -/
def extractStep (d : OcrData) (acc : List Word) (i : ℕ) : Except PyErr (List Word) :=
  let text := pyStrip ((d.text.getD []).getD i "")
  if text = "" then .ok acc
  else do
    let confV ← getField d.conf i
    let conf ← pyConv confV
    if conf < 0 then .ok acc
    else if conf < OCR_CONFIDENCE_THRESHOLD then .ok acc
    else do
      let l ← getField d.left i >>= pyConv
      let t ← getField d.top i >>= pyConv
      let w ← getField d.width i >>= pyConv
      let h ← getField d.height i >>= pyConv
      .ok (acc ++ [{ text := text, left := l, top := t, width := w,
                     height := h, conf := conf }])

/-- `OCRProcessor._extract_words`. -/
def extractWords (d : OcrData) : Except PyErr (List Word) :=
  (List.range (d.text.getD []).length).foldlM (extractStep d) []

/-! ### Well-formed OCR collections -/

/-- One well-formed raw OCR record (one index across the parallel lists). -/
structure RawRecord where
  text : String
  left : ℤ
  top : ℤ
  width : ℤ
  height : ℤ
  conf : ℚ
deriving DecidableEq, Repr

/-- Assemble the parallel-list dict of a list of well-formed records. -/
def ofRecords (rs : List RawRecord) : OcrData where
  text := some (rs.map RawRecord.text)
  conf := some (rs.map fun r => some r.conf)
  left := some (rs.map fun r => some r.left)
  top := some (rs.map fun r => some r.top)
  width := some (rs.map fun r => some r.width)
  height := some (rs.map fun r => some r.height)

/-- The record-level filter implemented by the loop body of
`_extract_words`: empty-after-strip, negative-confidence and
low-confidence records are dropped, the rest are kept with trimmed text. -/
def keepWord (r : RawRecord) : Option Word :=
  if pyStrip r.text = "" then none
  else if r.conf < 0 then none
  else if r.conf < OCR_CONFIDENCE_THRESHOLD then none
  else some { text := pyStrip r.text, left := r.left, top := r.top,
              width := r.width, height := r.height, conf := r.conf }

/-- `_extract_words` on a well-formed collection, record by record. -/
def filterWords (rs : List RawRecord) : List Word :=
  rs.filterMap keepWord

/-! ## Spec-side definitions (written from the specification's words, to be
compared with the code-derived definitions above) -/

/-- Spec §4.2's keep-rule, from the spec's words: keep a record iff its text
is non-empty after trimming, its confidence is not the structural sentinel
`-1`, and its confidence is not below the confidence threshold. -/
def specKeepWord (r : RawRecord) : Option Word :=
  if pyStrip r.text ≠ "" ∧ r.conf ≠ -1 ∧ ¬(r.conf < OCR_CONFIDENCE_THRESHOLD) then
    some { text := pyStrip r.text, left := r.left, top := r.top,
           width := r.width, height := r.height, conf := r.conf }
  else none

/-- Spec §4.2's filter: drop exactly the records `specKeepWord` rejects. -/
def specFilterWords (rs : List RawRecord) : List Word :=
  rs.filterMap specKeepWord

/-- Spec §4.3's walk, from the spec's words: keep as anchor the `top` of the
first word assigned to the line being built; a word joins the current line
iff `|word.top - anchor| < thr`, otherwise it starts a new line whose anchor
is that word's `top`; each finished line is re-sorted by `left`; lines are
emitted in walk order. -/
def specLineWalk (thr : ℤ) : List Word → List Word → ℤ → List (List Word)
  | [], currentLine, _ => [sortByLeft currentLine]
  | w :: rest, currentLine, anchor =>
      if |w.top - anchor| < thr then
        specLineWalk thr rest (currentLine ++ [w]) anchor
      else
        sortByLeft currentLine :: specLineWalk thr rest [w] w.top

/-- Spec §4.3's line grouper: sort by `(top, left)` ascending, then run the
anchor walk with the given threshold. -/
def specLineGrouper (thr : ℤ) (words : List Word) : List (List Word) :=
  match sortedByTopLeft words with
  | [] => []
  | w0 :: rest => specLineWalk thr rest [w0] w0.top

/-- Spec §4.4's paragraph chunking, from the spec's words: walk the lines in
order; a line joins the current paragraph iff `gap < threshold` where
`threshold = (mean height of the previous line's words) * mult` and
`gap = currentLine.minTop - previousLine.maxBottom`; otherwise the
accumulated paragraph is closed and a new one starts with the current line;
the final accumulated paragraph is always closed. -/
def specParWalk (mult : ℚ) : List Word → List (List Word) → List (List Word) →
    List (List (List Word))
  | _, accLines, [] => [accLines]
  | prevLine, accLines, curr :: rest =>
      if (lineGap prevLine curr : ℚ) < avgHeight prevLine * mult then
        specParWalk mult curr (accLines ++ [curr]) rest
      else
        accLines :: specParWalk mult curr [curr] rest

/-- Spec §4.4's paragraph splitter: the list of paragraphs, each a list of
consecutive lines. -/
def specSplitParagraphs (mult : ℚ) : List (List Word) → List (List (List Word))
  | [] => []
  | l0 :: rest => specParWalk mult l0 [l0] rest

/-! ## IEEE-754 binary64 model for `src/core/geometry.py`

CPython evaluates `/` and `*` on floats with correct rounding
(round-to-nearest, ties-to-even, 53-bit significand), `int/int` true
division is also correctly rounded, and `int(x)` truncates toward zero.
`roundNE q` is the binary64 value nearest `q` (ties to even); exponent
overflow/underflow cannot occur for any quantity appearing in the claims, so
it is not modelled. -/

/-- Fuelled binary-digit count (structural recursion on the fuel, so that
the kernel can evaluate it on literals). -/
def bitsAux : ℕ → ℕ → ℕ
  | 0, _ => 0
  | fuel + 1, n => if n = 0 then 0 else bitsAux fuel (n / 2) + 1

/-- Number of binary digits of `n` (`nbits 0 = 0`, `nbits 1 = 1`,
`nbits 4 = 3`): the unique `b` with `2 ^ (b - 1) ≤ n < 2 ^ b` for `n > 0`. -/
def nbits (n : ℕ) : ℕ := bitsAux n n

/-- `2 ^ e` in `ℚ` for an integer exponent, written so that the kernel can
evaluate it on literals. -/
def pow2z : ℤ → ℚ
  | .ofNat n => ((2 ^ n : ℕ) : ℚ)
  | .negSucc n => 1 / ((2 ^ (n + 1) : ℕ) : ℚ)

/-- `⌊log₂ a⌋` for a positive rational, via the digit counts of numerator
and denominator. -/
def ilog2q (a : ℚ) : ℤ :=
  let s : ℤ := (nbits a.num.natAbs : ℤ) - (nbits a.den : ℤ)
  if pow2z s ≤ a then s else s - 1

/-- Round a rational to 53 significant binary digits, nearest, ties to even. -/
def roundNE (q : ℚ) : ℚ :=
  if q = 0 then 0
  else
    let a := |q|
    let e : ℤ := ilog2q a
    let ulp : ℚ := pow2z (e - 52)
    let m : ℚ := a / ulp
    let mf : ℤ := ⌊m⌋
    let mr : ℤ :=
      if m - mf < 1 / 2 then mf
      else if 1 / 2 < m - mf then mf + 1
      else if mf % 2 = 0 then mf else mf + 1
    (if q < 0 then -1 else 1) * ((mr : ℚ) * ulp)

/-- Python `int(x)` on a float: truncation toward zero. -/
def pyTrunc (q : ℚ) : ℤ := if q < 0 then ⌈q⌉ else ⌊q⌋

/-- Python `float(n)` / implicit int-to-float conversion (rounds when
`|n| ≥ 2^53`). -/
def pyFloat (n : ℤ) : ℚ := roundNE (n : ℚ)

/-- `EMU_PER_INCH = 914400` (geometry.py line 12). -/
def EMU_PER_INCH : ℤ := 914400

/-- `px_to_emu` (geometry.py lines 19–35): `inches = pixels / dpi` (true
division of ints, correctly rounded); `int(inches * EMU_PER_INCH)`. -/
def px_to_emu (pixels dpi : ℤ) : ℤ :=
  let inches := roundNE ((pixels : ℚ) / (dpi : ℚ))
  pyTrunc (roundNE (inches * pyFloat EMU_PER_INCH))

/-- `emu_to_px` (geometry.py lines 38–50): `inches = emu / EMU_PER_INCH`;
`int(inches * dpi)`. -/
def emu_to_px (emu dpi : ℤ) : ℤ :=
  let inches := roundNE ((emu : ℚ) / (EMU_PER_INCH : ℚ))
  pyTrunc (roundNE (inches * pyFloat dpi))

/-- `calculate_slide_dimensions` (geometry.py lines 53–78). -/
def calculate_slide_dimensions (imageWidthPx imageHeightPx dpi : ℤ) : ℤ × ℤ :=
  (px_to_emu imageWidthPx dpi, px_to_emu imageHeightPx dpi)

/-- `scale_coordinates` (geometry.py lines 81–111): `scale = target_dpi /
source_dpi`; each of the four values is converted to float, multiplied by
`scale` and truncated with `int(...)`. -/
def scale_coordinates (x y width height source_dpi target_dpi : ℤ) :
    ℤ × ℤ × ℤ × ℤ :=
  let scale := roundNE ((target_dpi : ℚ) / (source_dpi : ℚ))
  (pyTrunc (roundNE (pyFloat x * scale)),
   pyTrunc (roundNE (pyFloat y * scale)),
   pyTrunc (roundNE (pyFloat width * scale)),
   pyTrunc (roundNE (pyFloat height * scale)))

/-- `get_aspect_ratio` (geometry.py lines 114–130): raises `ValueError`
when `height == 0`, otherwise returns `width / height`. -/
def get_aspect_ratio (width height : ℤ) : Except String ℚ :=
  if height = 0 then .error "Height cannot be zero"
  else .ok (roundNE ((width : ℚ) / (height : ℚ)))

/-- A malformed OCR collection: one text row, but the `conf` key is absent
from the dict (as from a truncated/noisy OCR result). -/
def badData : OcrData where
  text := some ["hi"]
  conf := none
  left := some [some 0]
  top := some [some 0]
  width := some [some 1]
  height := some [some 1]

/-! ## Helper lemmas: the binary64 rounding model -/

theorem pow2z_eq (e : ℤ) : pow2z e = (2 : ℚ) ^ e := by
  cases e with
  | ofNat n => simp [pow2z, zpow_natCast]
  | negSucc n => simp [pow2z, zpow_negSucc, one_div]

theorem pow2z_pos (e : ℤ) : 0 < pow2z e := by
  rw [pow2z_eq]
  positivity

theorem pow2z_lt_pow2z {e f : ℤ} : pow2z e < pow2z f ↔ e < f := by
  rw [pow2z_eq, pow2z_eq, zpow_lt_zpow_iff_right₀ one_lt_two]

theorem pow2z_add (e f : ℤ) : pow2z (e + f) = pow2z e * pow2z f := by
  rw [pow2z_eq, pow2z_eq, pow2z_eq, zpow_add₀ (by norm_num : (2 : ℚ) ≠ 0)]

theorem bitsAux_congr : ∀ (f₁ f₂ n : ℕ), n ≤ f₁ → n ≤ f₂ →
    bitsAux f₁ n = bitsAux f₂ n := by
  intro f₁
  induction f₁ with
  | zero =>
    intro f₂ n h₁ _
    interval_cases n
    cases f₂ <;> simp [bitsAux]
  | succ f ih =>
    intro f₂ n h₁ h₂
    rcases Nat.eq_zero_or_pos n with hn | hn
    · subst hn
      cases f₂ <;> simp [bitsAux]
    · obtain ⟨f₂', rfl⟩ : ∃ k, f₂ = k + 1 := ⟨f₂ - 1, by omega⟩
      simp only [bitsAux, if_neg (by omega : ¬ n = 0)]
      rw [ih f₂' (n / 2) (by omega) (by omega)]

theorem nbits_step {n : ℕ} (hn : 0 < n) : nbits n = nbits (n / 2) + 1 := by
  unfold nbits
  obtain ⟨m, rfl⟩ : ∃ k, n = k + 1 := ⟨n - 1, by omega⟩
  simp only [bitsAux, if_neg (by omega : ¬ m + 1 = 0)]
  rw [bitsAux_congr m ((m + 1) / 2) ((m + 1) / 2) (by omega) le_rfl]

theorem nbits_spec : ∀ n : ℕ, 0 < n →
    2 ^ (nbits n - 1) ≤ n ∧ n < 2 ^ nbits n := by
  intro n
  induction n using Nat.strong_induction_on with
  | _ n ih =>
    intro hn
    rcases Nat.lt_or_ge n 2 with h2 | h2
    · interval_cases n
      constructor <;> simp [nbits, bitsAux]
    · have hhalf : 0 < n / 2 := by omega
      obtain ⟨hlo, hhi⟩ := ih (n / 2) (by omega) hhalf
      have hb : 1 ≤ nbits (n / 2) := by
        rw [nbits_step hhalf]; omega
      rw [nbits_step (by omega : 0 < n)]
      constructor
      · have : 2 ^ (nbits (n / 2) - 1) * 2 ≤ n / 2 * 2 := by omega
        calc 2 ^ (nbits (n / 2) + 1 - 1) = 2 ^ (nbits (n / 2) - 1) * 2 := by
              rw [Nat.add_sub_cancel, ← Nat.pow_succ]
              congr 1
              omega
          _ ≤ n / 2 * 2 := this
          _ ≤ n := by omega
      · calc n ≤ n / 2 * 2 + 1 := by omega
          _ < 2 ^ nbits (n / 2) * 2 := by omega
          _ = 2 ^ (nbits (n / 2) + 1) := by rw [Nat.pow_succ]

theorem pow2z_le_pow2z {e f : ℤ} : pow2z e ≤ pow2z f ↔ e ≤ f := by
  rw [pow2z_eq, pow2z_eq, zpow_le_zpow_iff_right₀ one_lt_two]

theorem pow2z_natCast (n : ℕ) : pow2z (n : ℤ) = ((2 ^ n : ℕ) : ℚ) := rfl

theorem pow2z_neg (e : ℤ) : pow2z (-e) = (pow2z e)⁻¹ := by
  rw [pow2z_eq, pow2z_eq, zpow_neg]

theorem div_pow2z (q : ℚ) (e : ℤ) : q / pow2z e = q * pow2z (-e) := by
  rw [div_eq_mul_inv, pow2z_neg]

theorem ilog2q_bounds {a : ℚ} (ha : 0 < a) :
    pow2z ((nbits a.num.natAbs : ℤ) - (nbits a.den : ℤ) - 1) < a ∧
    a < pow2z ((nbits a.num.natAbs : ℤ) - (nbits a.den : ℤ) + 1) := by
  have hnum : 0 < a.num := Rat.num_pos.mpr ha
  have hden : 0 < a.den := a.pos
  have hnumAbs : 0 < a.num.natAbs := by omega
  obtain ⟨hn1, hn2⟩ := nbits_spec a.num.natAbs hnumAbs
  obtain ⟨hd1, hd2⟩ := nbits_spec a.den hden
  have hbn : 1 ≤ nbits a.num.natAbs := by
    rcases Nat.eq_zero_or_pos (nbits a.num.natAbs) with h | h
    · rw [h] at hn2
      omega
    · exact h
  have hbd : 1 ≤ nbits a.den := by
    rcases Nat.eq_zero_or_pos (nbits a.den) with h | h
    · rw [h] at hd2
      omega
    · exact h
  have hdenQ : (0 : ℚ) < (a.den : ℚ) := by exact_mod_cast hden
  have hval : ((a.num : ℚ)) / ((a.den : ℚ)) = a := Rat.num_div_den a
  -- cast the natural-number digit bounds to ℚ
  have hcastnum : (a.num : ℚ) = ((a.num.natAbs : ℕ) : ℚ) := by
    calc (a.num : ℚ) = (((a.num.natAbs : ℤ)) : ℚ) := by
          rw [Int.natAbs_of_nonneg hnum.le]
      _ = ((a.num.natAbs : ℕ) : ℚ) := by rw [Int.cast_natCast]
  have hn1Q : pow2z ((nbits a.num.natAbs : ℤ) - 1) ≤ (a.num : ℚ) := by
    have h : ((nbits a.num.natAbs : ℤ) - 1) = ((nbits a.num.natAbs - 1 : ℕ) : ℤ) := by omega
    rw [h, pow2z_natCast, hcastnum]
    exact_mod_cast hn1
  have hn2Q : (a.num : ℚ) < pow2z (nbits a.num.natAbs : ℤ) := by
    rw [pow2z_natCast, hcastnum]
    exact_mod_cast hn2
  have hd1Q : pow2z ((nbits a.den : ℤ) - 1) ≤ (a.den : ℚ) := by
    have : ((nbits a.den : ℤ) - 1) = ((nbits a.den - 1 : ℕ) : ℤ) := by omega
    rw [this, pow2z_natCast]
    exact_mod_cast hd1
  have hd2Q : (a.den : ℚ) < pow2z (nbits a.den : ℤ) := by
    rw [pow2z_natCast]
    exact_mod_cast hd2
  constructor
  · have key : pow2z ((nbits a.num.natAbs : ℤ) - (nbits a.den : ℤ) - 1) * (a.den : ℚ)
        < (a.num : ℚ) := by
      calc pow2z ((nbits a.num.natAbs : ℤ) - (nbits a.den : ℤ) - 1) * (a.den : ℚ)
          < pow2z ((nbits a.num.natAbs : ℤ) - (nbits a.den : ℤ) - 1) *
              pow2z (nbits a.den : ℤ) := by
            exact mul_lt_mul_of_pos_left hd2Q (pow2z_pos _)
        _ = pow2z ((nbits a.num.natAbs : ℤ) - 1) := by
            rw [← pow2z_add]
            congr 1
            ring
        _ ≤ (a.num : ℚ) := hn1Q
    have h := (lt_div_iff₀ hdenQ).mpr key
    rwa [hval] at h
  · have key : (a.num : ℚ)
        < pow2z ((nbits a.num.natAbs : ℤ) - (nbits a.den : ℤ) + 1) * (a.den : ℚ) := by
      calc (a.num : ℚ) < pow2z (nbits a.num.natAbs : ℤ) := hn2Q
        _ = pow2z ((nbits a.num.natAbs : ℤ) - (nbits a.den : ℤ) + 1) *
              pow2z ((nbits a.den : ℤ) - 1) := by
            rw [← pow2z_add]
            congr 1
            ring
        _ ≤ pow2z ((nbits a.num.natAbs : ℤ) - (nbits a.den : ℤ) + 1) * (a.den : ℚ) := by
            exact mul_le_mul_of_nonneg_left hd1Q (pow2z_pos _).le
    have h := (div_lt_iff₀ hdenQ).mpr key
    rwa [hval] at h

theorem ilog2q_spec {a : ℚ} (ha : 0 < a) :
    pow2z (ilog2q a) ≤ a ∧ a < pow2z (ilog2q a + 1) := by
  obtain ⟨hlo, hhi⟩ := ilog2q_bounds ha
  simp only [ilog2q]
  split
  · next h => exact ⟨h, hhi⟩
  · next h =>
    refine ⟨hlo.le, ?_⟩
    rw [sub_add_cancel]
    exact lt_of_not_ge fun hc => h hc

theorem ilog2q_eq_of {a : ℚ} {e : ℤ} (ha : 0 < a)
    (h1 : pow2z e ≤ a) (h2 : a < pow2z (e + 1)) : ilog2q a = e := by
  obtain ⟨l, u⟩ := ilog2q_spec ha
  by_contra hne
  rcases lt_or_gt_of_ne hne with h | h
  · have : pow2z (ilog2q a + 1) ≤ pow2z e := pow2z_le_pow2z.mpr (by omega)
    linarith
  · have : pow2z (e + 1) ≤ pow2z (ilog2q a) := pow2z_le_pow2z.mpr (by omega)
    linarith

/-- Evaluation of `roundNE` in the round-down case (the fractional part of
the scaled significand is below one half). -/
theorem roundNE_eq_down {q : ℚ} {e mf : ℤ} (hq : 0 < q)
    (h1 : pow2z e ≤ q) (h2 : q < pow2z (e + 1))
    (h3 : (mf : ℚ) ≤ q / pow2z (e - 52))
    (h4 : q / pow2z (e - 52) < (mf : ℚ) + 1 / 2) :
    roundNE q = (mf : ℚ) * pow2z (e - 52) := by
  have hne : q ≠ 0 := ne_of_gt hq
  have habs : |q| = q := abs_of_pos hq
  have hfloor : ⌊q / pow2z (e - 52)⌋ = mf := by
    rw [Int.floor_eq_iff]
    constructor
    · exact h3
    · linarith
  simp only [roundNE, if_neg hne, habs, ilog2q_eq_of hq h1 h2, hfloor]
  rw [if_pos (by linarith : q / pow2z (e - 52) - (mf : ℚ) < 1 / 2),
    if_neg (not_lt.mpr hq.le), one_mul]

theorem roundNE_zero : roundNE 0 = 0 := by simp [roundNE]

theorem roundNE_neg (q : ℚ) : roundNE (-q) = -roundNE q := by
  rcases lt_trichotomy q 0 with h | rfl | h
  · simp only [roundNE, if_neg (neg_ne_zero.mpr (ne_of_lt h)), if_neg (ne_of_lt h),
      abs_neg, if_neg (by linarith : ¬ -q < 0), if_pos h]
    ring
  · simp [roundNE]
  · simp only [roundNE, if_neg (neg_ne_zero.mpr (ne_of_gt h)), if_neg (ne_of_gt h),
      abs_neg, if_pos (by linarith : -q < 0), if_neg (by linarith : ¬ q < 0)]
    ring

theorem roundNE_intCast_pos {n : ℤ} (h0 : 0 < n) (h53 : n < 2 ^ 53) :
    roundNE (n : ℚ) = (n : ℚ) := by
  have hq : (0 : ℚ) < (n : ℚ) := by exact_mod_cast h0
  obtain ⟨hl, hu⟩ := ilog2q_spec hq
  set e := ilog2q ((n : ℚ)) with he
  have he53 : e < 53 := by
    rw [← pow2z_lt_pow2z]
    calc pow2z e ≤ (n : ℚ) := hl
      _ < pow2z 53 := by
        rw [show (53 : ℤ) = ((53 : ℕ) : ℤ) by rfl, pow2z_natCast]
        exact_mod_cast h53
  have he0 : 0 ≤ e := by
    have h1n : pow2z 0 ≤ (n : ℚ) := by
      rw [show (0 : ℤ) = ((0 : ℕ) : ℤ) by rfl, pow2z_natCast]
      exact_mod_cast h0
    have : pow2z 0 < pow2z (e + 1) := lt_of_le_of_lt h1n hu
    rw [pow2z_lt_pow2z] at this
    omega
  have hinv : pow2z (52 - e) * pow2z (e - 52) = 1 := by
    rw [← pow2z_add, show 52 - e + (e - 52) = 0 by ring, pow2z_eq, zpow_zero]
  set k : ℕ := (52 - e).toNat with hkdef
  have hk : (k : ℤ) = 52 - e := Int.toNat_of_nonneg (by omega)
  have hmf : ((n * 2 ^ k : ℤ) : ℚ) = (n : ℚ) * pow2z (52 - e) := by
    rw [← hk, pow2z_natCast]
    push_cast
    ring
  have hdiv : (n : ℚ) / pow2z (e - 52) = (n : ℚ) * pow2z (52 - e) := by
    rw [div_pow2z, show -(e - 52) = 52 - e by ring]
  have := @roundNE_eq_down (n : ℚ) e (n * 2 ^ k) hq hl hu
    (by rw [hmf, hdiv]) (by rw [hmf, hdiv]; linarith)
  rw [this, hmf]
  calc (n : ℚ) * pow2z (52 - e) * pow2z (e - 52)
      = (n : ℚ) * (pow2z (52 - e) * pow2z (e - 52)) := by ring
    _ = (n : ℚ) := by rw [hinv, mul_one]

theorem roundNE_intCast {n : ℤ} (h : |n| < 2 ^ 53) :
    roundNE (n : ℚ) = (n : ℚ) := by
  have h' := abs_lt.mp h
  rcases lt_trichotomy n 0 with hn | rfl | hn
  · have hpos : roundNE ((-n : ℤ) : ℚ) = ((-n : ℤ) : ℚ) :=
      roundNE_intCast_pos (by omega) (by omega)
    push_cast at hpos
    rw [show ((n : ℤ) : ℚ) = -(-(n : ℚ)) by ring, roundNE_neg, hpos]
  · simpa using roundNE_zero
  · exact roundNE_intCast_pos hn h'.2

theorem pyTrunc_intCast (n : ℤ) : pyTrunc (n : ℚ) = n := by
  unfold pyTrunc
  split
  · exact Int.ceil_intCast n
  · exact Int.floor_intCast n

theorem pyTrunc_of_nonneg {q : ℚ} (h : 0 ≤ q) : pyTrunc q = ⌊q⌋ :=
  if_neg (not_lt.mpr h)

/-- Rounding commutes with scaling by powers of two (exponent shifts leave
the significand untouched). -/
theorem roundNE_mul_pow2z (q : ℚ) (t : ℤ) :
    roundNE (q * pow2z t) = roundNE q * pow2z t := by
  by_cases hq : q = 0
  · rw [hq, zero_mul, roundNE_zero, zero_mul]
  · have hqt : q * pow2z t ≠ 0 := mul_ne_zero hq (pow2z_pos t).ne'
    have habs : |q * pow2z t| = |q| * pow2z t := by
      rw [abs_mul, abs_of_pos (pow2z_pos t)]
    have haq : 0 < |q| := abs_pos.mpr hq
    have hilog : ilog2q (|q| * pow2z t) = ilog2q |q| + t := by
      obtain ⟨h1, h2⟩ := ilog2q_spec haq
      apply ilog2q_eq_of (mul_pos haq (pow2z_pos t))
      · rw [pow2z_add]
        exact mul_le_mul_of_nonneg_right h1 (pow2z_pos t).le
      · rw [show ilog2q |q| + t + 1 = ilog2q |q| + 1 + t by ring, pow2z_add]
        exact mul_lt_mul_of_pos_right h2 (pow2z_pos t)
    have hm : |q| * pow2z t / pow2z (ilog2q |q| + t - 52)
        = |q| / pow2z (ilog2q |q| - 52) := by
      rw [div_pow2z, div_pow2z, mul_assoc, ← pow2z_add,
        show t + -(ilog2q |q| + t - 52) = -(ilog2q |q| - 52) by ring]
    have hsign : (q * pow2z t < 0) ↔ (q < 0) := by
      constructor
      · intro h
        nlinarith [pow2z_pos t]
      · intro h
        exact mul_neg_of_neg_of_pos h (pow2z_pos t)
    simp only [roundNE, if_neg hqt, if_neg hq, habs, hilog, hm]
    rw [if_congr hsign rfl rfl]
    by_cases hs : q < 0
    · rw [if_pos hs, show ilog2q |q| + t - 52 = ilog2q |q| - 52 + t by ring, pow2z_add]
      ring
    · rw [if_neg hs, show ilog2q |q| + t - 52 = ilog2q |q| - 52 + t by ring, pow2z_add]
      ring

/-! ## Helper lemmas: the geometry conversions -/

theorem pyFloat_emu : pyFloat EMU_PER_INCH = (914400 : ℚ) := by
  unfold pyFloat EMU_PER_INCH
  rw [roundNE_intCast (by norm_num)]
  norm_num

theorem pyFloat_small {n : ℤ} (h : |n| < 2 ^ 53) : pyFloat n = (n : ℚ) :=
  roundNE_intCast h

/-- `px_to_emu` agrees with the exact rational floor whenever neither float
operation rounds. -/
theorem px_to_emu_of_exact {p d : ℤ} (hp : 0 ≤ p) (hd : 0 < d)
    (hdiv : roundNE ((p : ℚ) / (d : ℚ)) = (p : ℚ) / (d : ℚ))
    (hmul : roundNE ((p : ℚ) / (d : ℚ) * 914400) = (p : ℚ) / (d : ℚ) * 914400) :
    px_to_emu p d = ⌊(p : ℚ) / (d : ℚ) * 914400⌋ := by
  have hval : (0 : ℚ) ≤ (p : ℚ) / (d : ℚ) * 914400 := by
    have h1 : (0 : ℚ) ≤ (p : ℚ) := by exact_mod_cast hp
    have h2 : (0 : ℚ) ≤ (d : ℚ) := by exact_mod_cast hd.le
    positivity
  simp only [px_to_emu, pyFloat_emu, hdiv, hmul, pyTrunc_of_nonneg hval]

/-- `emu_to_px` agrees with the exact rational floor whenever neither float
operation rounds (the target dpi must itself be exactly representable). -/
theorem emu_to_px_of_exact {u d : ℤ} (hu : 0 ≤ u) (hd : 0 < d)
    (hd53 : d < 2 ^ 53)
    (hdiv : roundNE ((u : ℚ) / 914400) = (u : ℚ) / 914400)
    (hmul : roundNE ((u : ℚ) / 914400 * (d : ℚ)) = (u : ℚ) / 914400 * (d : ℚ)) :
    emu_to_px u d = ⌊(u : ℚ) / 914400 * (d : ℚ)⌋ := by
  have hval : (0 : ℚ) ≤ (u : ℚ) / 914400 * (d : ℚ) := by
    have h1 : (0 : ℚ) ≤ (u : ℚ) := by exact_mod_cast hu
    have h2 : (0 : ℚ) ≤ (d : ℚ) := by exact_mod_cast hd.le
    positivity
  have hcast : ((EMU_PER_INCH : ℤ) : ℚ) = (914400 : ℚ) := by
    unfold EMU_PER_INCH
    norm_num
  simp only [emu_to_px, hcast, pyFloat_small (by rw [abs_of_pos hd]; exact hd53),
    hdiv, hmul, pyTrunc_of_nonneg hval]

/-- The float division `13 / 3` rounds down to the binary64 value
`4878899596318037 · 2⁻⁵⁰`. -/
theorem roundNE_13_3 :
    roundNE ((13 : ℚ) / 3) = 4878899596318037 / 1125899906842624 := by
  have h := @roundNE_eq_down ((13 : ℚ) / 3) 2 4878899596318037
    (by norm_num)
    (by rw [show (2 : ℤ) = ((2 : ℕ) : ℤ) by rfl, pow2z_natCast]; norm_num)
    (by rw [show (2 : ℤ) + 1 = ((3 : ℕ) : ℤ) by rfl, pow2z_natCast]; norm_num)
    (by rw [div_pow2z, show -((2 : ℤ) - 52) = ((50 : ℕ) : ℤ) by rfl, pow2z_natCast]
        norm_num)
    (by rw [div_pow2z, show -((2 : ℤ) - 52) = ((50 : ℕ) : ℤ) by rfl, pow2z_natCast]
        norm_num)
  rw [h, show ((2 : ℤ) - 52) = -((50 : ℕ) : ℤ) by rfl, pow2z_neg, pow2z_natCast]
  norm_num

/-- The float product `(13/3 as binary64) * 914400` rounds down to
`8509189206835199 · 2⁻³¹ = 3962399.9999999995…`. -/
theorem roundNE_13_3_mul :
    roundNE ((4878899596318037 : ℚ) / 1125899906842624 * 914400) =
      8509189206835199 / 2147483648 := by
  have h := @roundNE_eq_down
    ((4878899596318037 : ℚ) / 1125899906842624 * 914400)
    21 8509189206835199
    (by norm_num)
    (by rw [show (21 : ℤ) = ((21 : ℕ) : ℤ) by rfl, pow2z_natCast]; norm_num)
    (by rw [show (21 : ℤ) + 1 = ((22 : ℕ) : ℤ) by rfl, pow2z_natCast]; norm_num)
    (by rw [div_pow2z, show -((21 : ℤ) - 52) = ((31 : ℕ) : ℤ) by rfl, pow2z_natCast]
        norm_num)
    (by rw [div_pow2z, show -((21 : ℤ) - 52) = ((31 : ℕ) : ℤ) by rfl, pow2z_natCast]
        norm_num)
  rw [h, show ((21 : ℤ) - 52) = -((31 : ℕ) : ℤ) by rfl, pow2z_neg, pow2z_natCast]
  norm_num

/-- Concrete evaluation: `px_to_emu(13, 3) = 3962399` in the code's float
arithmetic, one below the exact rational floor `3962400`. -/
theorem px_to_emu_13_3 : px_to_emu 13 3 = 3962399 := by
  have hcast : ((13 : ℤ) : ℚ) / ((3 : ℤ) : ℚ) = (13 : ℚ) / 3 := by norm_num
  simp only [px_to_emu, hcast, roundNE_13_3, pyFloat_emu, roundNE_13_3_mul]
  rw [pyTrunc_of_nonneg (by norm_num)]
  rw [Int.floor_eq_iff]
  constructor <;> norm_num

/-! ## Helper lemmas: Python `min`/`max` over non-empty sequences -/

theorem foldl_min_le_init : ∀ (l : List ℤ) (a : ℤ), l.foldl min a ≤ a := by
  intro l
  induction l with
  | nil => intro a; simp
  | cons y t ih =>
    intro a
    calc (y :: t).foldl min a = t.foldl min (min a y) := rfl
      _ ≤ min a y := ih _
      _ ≤ a := min_le_left _ _

theorem foldl_min_le_mem : ∀ (l : List ℤ) (a x : ℤ), x ∈ l → l.foldl min a ≤ x := by
  intro l
  induction l with
  | nil => intro a x hx; cases hx
  | cons y t ih =>
    intro a x hx
    rcases List.mem_cons.mp hx with rfl | hx
    · calc (x :: t).foldl min a = t.foldl min (min a x) := rfl
        _ ≤ min a x := foldl_min_le_init _ _
        _ ≤ x := min_le_right _ _
    · exact ih (min a y) x hx

theorem foldl_min_cases : ∀ (l : List ℤ) (a : ℤ),
    l.foldl min a = a ∨ l.foldl min a ∈ l := by
  intro l
  induction l with
  | nil => intro a; left; rfl
  | cons y t ih =>
    intro a
    rcases ih (min a y) with h | h
    · rcases min_choice a y with hm | hm
      · left
        calc (y :: t).foldl min a = t.foldl min (min a y) := rfl
          _ = min a y := h
          _ = a := hm
      · right
        apply List.mem_cons.mpr
        left
        calc (y :: t).foldl min a = t.foldl min (min a y) := rfl
          _ = min a y := h
          _ = y := hm
    · right
      exact List.mem_cons.mpr (Or.inr h)

theorem foldl_max_ge_init : ∀ (l : List ℤ) (a : ℤ), a ≤ l.foldl max a := by
  intro l
  induction l with
  | nil => intro a; simp
  | cons y t ih =>
    intro a
    calc a ≤ max a y := le_max_left _ _
      _ ≤ t.foldl max (max a y) := ih _
      _ = (y :: t).foldl max a := rfl

theorem foldl_max_ge_mem : ∀ (l : List ℤ) (a x : ℤ), x ∈ l → x ≤ l.foldl max a := by
  intro l
  induction l with
  | nil => intro a x hx; cases hx
  | cons y t ih =>
    intro a x hx
    rcases List.mem_cons.mp hx with rfl | hx
    · calc x ≤ max a x := le_max_right _ _
        _ ≤ t.foldl max (max a x) := foldl_max_ge_init _ _
        _ = (x :: t).foldl max a := rfl
    · exact ih (max a y) x hx

theorem foldl_max_cases : ∀ (l : List ℤ) (a : ℤ),
    l.foldl max a = a ∨ l.foldl max a ∈ l := by
  intro l
  induction l with
  | nil => intro a; left; rfl
  | cons y t ih =>
    intro a
    rcases ih (max a y) with h | h
    · rcases max_choice a y with hm | hm
      · left
        calc (y :: t).foldl max a = t.foldl max (max a y) := rfl
          _ = max a y := h
          _ = a := hm
      · right
        apply List.mem_cons.mpr
        left
        calc (y :: t).foldl max a = t.foldl max (max a y) := rfl
          _ = max a y := h
          _ = y := hm
    · right
      exact List.mem_cons.mpr (Or.inr h)

theorem pyMin_le {l : List ℤ} {x : ℤ} (h : x ∈ l) : pyMin l ≤ x := by
  cases l with
  | nil => cases h
  | cons a t =>
    rcases List.mem_cons.mp h with rfl | h
    · exact foldl_min_le_init t x
    · exact foldl_min_le_mem t a x h

theorem pyMin_mem {l : List ℤ} (h : l ≠ []) : pyMin l ∈ l := by
  cases l with
  | nil => exact absurd rfl h
  | cons a t =>
    rcases foldl_min_cases t a with h' | h'
    · exact List.mem_cons.mpr (Or.inl h')
    · exact List.mem_cons.mpr (Or.inr h')

theorem le_pyMax {l : List ℤ} {x : ℤ} (h : x ∈ l) : x ≤ pyMax l := by
  cases l with
  | nil => cases h
  | cons a t =>
    rcases List.mem_cons.mp h with rfl | h
    · exact foldl_max_ge_init t x
    · exact foldl_max_ge_mem t a x h

theorem pyMax_mem {l : List ℤ} (h : l ≠ []) : pyMax l ∈ l := by
  cases l with
  | nil => exact absurd rfl h
  | cons a t =>
    rcases foldl_max_cases t a with h' | h'
    · exact List.mem_cons.mpr (Or.inl h')
    · exact List.mem_cons.mpr (Or.inr h')

/-! ## Helper lemmas: line grouping -/

theorem lineWalk_eq_spec : ∀ (ws cur : List Word) (y : ℤ),
    lineWalk ws cur y = specLineWalk LINE_MERGE_THRESHOLD_PX ws cur y := by
  intro ws
  induction ws with
  | nil => intro cur y; rfl
  | cons w rest ih =>
    intro cur y
    simp only [lineWalk, specLineWalk]
    by_cases h : |w.top - y| < LINE_MERGE_THRESHOLD_PX
    · rw [if_pos h, if_pos h, ih]
    · rw [if_neg h, if_neg h, ih]

theorem groupIntoLines_eq_spec (words : List Word) :
    groupIntoLines words = specLineGrouper LINE_MERGE_THRESHOLD_PX words := by
  unfold groupIntoLines specLineGrouper
  cases sortedByTopLeft words with
  | nil => rfl
  | cons w0 rest => exact lineWalk_eq_spec rest [w0] w0.top

theorem lineWalk_sorted : ∀ (ws cur : List Word) (y : ℤ),
    ∀ line ∈ lineWalk ws cur y, line.Sorted leftLE := by
  intro ws
  induction ws with
  | nil =>
    intro cur y line hline
    simp only [lineWalk, List.mem_singleton] at hline
    subst hline
    exact List.sorted_insertionSort leftLE cur
  | cons w rest ih =>
    intro cur y line hline
    simp only [lineWalk] at hline
    by_cases h : |w.top - y| < LINE_MERGE_THRESHOLD_PX
    · rw [if_pos h] at hline
      exact ih _ _ line hline
    · rw [if_neg h] at hline
      rcases List.mem_cons.mp hline with rfl | hline
      · exact List.sorted_insertionSort leftLE cur
      · exact ih _ _ line hline

theorem lineWalk_flatten_perm : ∀ (ws cur : List Word) (y : ℤ),
    List.Perm (lineWalk ws cur y).flatten (cur ++ ws) := by
  intro ws
  induction ws with
  | nil =>
    intro cur y
    simp only [lineWalk, List.flatten, List.flatten_nil, List.append_nil]
    exact List.perm_insertionSort leftLE cur
  | cons w rest ih =>
    intro cur y
    simp only [lineWalk]
    by_cases h : |w.top - y| < LINE_MERGE_THRESHOLD_PX
    · rw [if_pos h]
      refine (ih (cur ++ [w]) y).trans ?_
      rw [List.append_assoc]
      exact List.Perm.rfl
    · rw [if_neg h, List.flatten_cons]
      have h1 : List.Perm (sortByLeft cur) cur := List.perm_insertionSort leftLE cur
      have h2 : List.Perm (lineWalk rest [w] w.top).flatten ([w] ++ rest) := ih [w] w.top
      exact h1.append h2

theorem groupIntoLines_flatten_perm (words : List Word) :
    List.Perm (groupIntoLines words).flatten words := by
  unfold groupIntoLines
  rcases hs : sortedByTopLeft words with _ | ⟨w0, rest⟩
  · have h := List.perm_insertionSort wordLE words
    unfold sortedByTopLeft at hs
    rw [hs] at h
    simp [h.symm.eq_nil]
  · have hperm := List.perm_insertionSort wordLE words
    unfold sortedByTopLeft at hs
    rw [hs] at hperm
    exact (lineWalk_flatten_perm rest [w0] w0.top).trans hperm

/-! ## Helper lemmas: paragraph grouping -/

theorem paragraphWalk_eq_spec : ∀ (rest : List (List Word)) (prev : List Word)
    (acc : List (List Word)),
    paragraphWalk prev acc rest =
      (specParWalk PARAGRAPH_GAP_MULTIPLIER prev acc rest).map mergeLinesToBlock := by
  intro rest
  induction rest with
  | nil => intro prev acc; rfl
  | cons curr rest ih =>
    intro prev acc
    simp only [paragraphWalk, specParWalk, parThreshold]
    by_cases h : (lineGap prev curr : ℚ) < avgHeight prev * PARAGRAPH_GAP_MULTIPLIER
    · rw [if_pos h, if_pos h, ih]
    · rw [if_neg h, if_neg h, List.map_cons, ih]

theorem groupIntoParagraphs_eq_spec (lines : List (List Word)) :
    groupIntoParagraphs lines =
      (specSplitParagraphs PARAGRAPH_GAP_MULTIPLIER lines).map mergeLinesToBlock := by
  unfold groupIntoParagraphs specSplitParagraphs
  cases lines with
  | nil => rfl
  | cons l0 rest => exact paragraphWalk_eq_spec rest l0 [l0]

/-! ## Helper lemmas: word extraction -/

theorem keepWord_eq_spec (r : RawRecord) : keepWord r = specKeepWord r := by
  unfold keepWord specKeepWord OCR_CONFIDENCE_THRESHOLD
  by_cases h1 : pyStrip r.text = ""
  · rw [if_pos h1, if_neg (by tauto)]
  · rw [if_neg h1]
    by_cases h2 : r.conf < 0
    · rw [if_pos h2, if_neg ?_]
      intro hc
      exact hc.2.2 (by linarith)
    · rw [if_neg h2]
      by_cases h3 : r.conf < 40
      · rw [if_pos h3, if_neg ?_]
        intro hc
        exact hc.2.2 h3
      · rw [if_neg h3, if_pos ?_]
        refine ⟨h1, ?_, h3⟩
        intro hc
        rw [hc] at h3
        exact h3 (by norm_num)

theorem filterWords_eq_spec (rs : List RawRecord) :
    filterWords rs = specFilterWords rs := by
  unfold filterWords specFilterWords
  congr 1
  funext r
  exact keepWord_eq_spec r

theorem exbind_ok {α β : Type} (a : α) (f : α → Except PyErr β) :
    (Except.ok a >>= f) = f a := rfl

theorem extractStep_ofRecords (rs : List RawRecord) (acc : List Word) (i : ℕ)
    (hi : i < rs.length) :
    extractStep (ofRecords rs) acc i =
      .ok (acc ++ (keepWord (rs.get ⟨i, hi⟩)).toList) := by
  have htext : (((ofRecords rs).text.getD []).getD i "") = (rs.get ⟨i, hi⟩).text := by
    simp [ofRecords, List.getD_eq_getElem?_getD, List.getElem?_map,
      List.getElem?_eq_getElem hi]
  have hconf : getField (ofRecords rs).conf i = .ok (some (rs.get ⟨i, hi⟩).conf) := by
    simp [ofRecords, getField, List.get?_eq_getElem?, List.getElem?_map,
      List.getElem?_eq_getElem hi]
  have hleft : getField (ofRecords rs).left i = .ok (some (rs.get ⟨i, hi⟩).left) := by
    simp [ofRecords, getField, List.get?_eq_getElem?, List.getElem?_map,
      List.getElem?_eq_getElem hi]
  have htop : getField (ofRecords rs).top i = .ok (some (rs.get ⟨i, hi⟩).top) := by
    simp [ofRecords, getField, List.get?_eq_getElem?, List.getElem?_map,
      List.getElem?_eq_getElem hi]
  have hwidth : getField (ofRecords rs).width i = .ok (some (rs.get ⟨i, hi⟩).width) := by
    simp [ofRecords, getField, List.get?_eq_getElem?, List.getElem?_map,
      List.getElem?_eq_getElem hi]
  have hheight : getField (ofRecords rs).height i =
      .ok (some (rs.get ⟨i, hi⟩).height) := by
    simp [ofRecords, getField, List.get?_eq_getElem?, List.getElem?_map,
      List.getElem?_eq_getElem hi]
  simp only [extractStep, htext]
  unfold keepWord
  by_cases h1 : pyStrip (rs.get ⟨i, hi⟩).text = ""
  · rw [if_pos h1, if_pos h1]
    simp
  · rw [if_neg h1, if_neg h1, hconf, exbind_ok]
    show (pyConv (some (rs.get ⟨i, hi⟩).conf) >>= _) = _
    rw [show pyConv (some (rs.get ⟨i, hi⟩).conf) = .ok (rs.get ⟨i, hi⟩).conf from rfl,
      exbind_ok]
    by_cases h2 : (rs.get ⟨i, hi⟩).conf < 0
    · rw [if_pos h2, if_pos h2]
      simp
    · rw [if_neg h2, if_neg h2]
      by_cases h3 : (rs.get ⟨i, hi⟩).conf < OCR_CONFIDENCE_THRESHOLD
      · rw [if_pos h3, if_pos h3]
        simp
      · rw [if_neg h3, if_neg h3]
        rw [show (getField (ofRecords rs).left i >>= pyConv) =
            .ok (rs.get ⟨i, hi⟩).left by rw [hleft]; rfl, exbind_ok]
        rw [show (getField (ofRecords rs).top i >>= pyConv) =
            .ok (rs.get ⟨i, hi⟩).top by rw [htop]; rfl, exbind_ok]
        rw [show (getField (ofRecords rs).width i >>= pyConv) =
            .ok (rs.get ⟨i, hi⟩).width by rw [hwidth]; rfl, exbind_ok]
        rw [show (getField (ofRecords rs).height i >>= pyConv) =
            .ok (rs.get ⟨i, hi⟩).height by rw [hheight]; rfl, exbind_ok]
        rfl

theorem extract_range (rs : List RawRecord) : ∀ (m k : ℕ) (acc : List Word),
    m + k = rs.length →
    (List.range' k m).foldlM (extractStep (ofRecords rs)) acc
      = .ok (acc ++ filterWords (rs.drop k)) := by
  intro m
  induction m with
  | zero =>
    intro k acc hk
    have hdrop : rs.drop k = [] := List.drop_eq_nil_of_le (by omega)
    simp [List.range', hdrop, filterWords]
    rfl
  | succ m ih =>
    intro k acc hk
    have hkl : k < rs.length := by omega
    rw [List.range'_succ, List.foldlM_cons, extractStep_ofRecords rs acc k hkl,
      exbind_ok, ih (k + 1) _ (by omega)]
    rw [List.drop_eq_getElem_cons hkl]
    simp only [filterWords, List.filterMap_cons, List.get_eq_getElem]
    cases hkeep : keepWord rs[k] <;> simp [hkeep]

theorem extractWords_ofRecords (rs : List RawRecord) :
    extractWords (ofRecords rs) = .ok (filterWords rs) := by
  unfold extractWords
  have hlen : ((ofRecords rs).text.getD []).length = rs.length := by
    simp [ofRecords]
  rw [hlen, List.range_eq_range']
  have h := extract_range rs rs.length 0 [] (by omega)
  simpa using h

/-! ## Helper lemmas: concrete canvas evaluations -/

theorem px_to_emu_3000_300 : px_to_emu 3000 300 = 9144000 := by
  have hk : ((3000 : ℤ) : ℚ) / ((300 : ℤ) : ℚ) = ((10 : ℤ) : ℚ) := by norm_num
  have hv : ((3000 : ℤ) : ℚ) / ((300 : ℤ) : ℚ) * 914400 = ((9144000 : ℤ) : ℚ) := by
    rw [hk]
    norm_num
  have hdiv : roundNE (((3000 : ℤ) : ℚ) / ((300 : ℤ) : ℚ))
      = ((3000 : ℤ) : ℚ) / ((300 : ℤ) : ℚ) := by
    rw [hk, roundNE_intCast (by norm_num)]
  have hmul : roundNE (((3000 : ℤ) : ℚ) / ((300 : ℤ) : ℚ) * 914400)
      = ((3000 : ℤ) : ℚ) / ((300 : ℤ) : ℚ) * 914400 := by
    rw [hv, roundNE_intCast (by norm_num)]
  rw [px_to_emu_of_exact (by norm_num) (by norm_num) hdiv hmul, hv, Int.floor_intCast]

theorem px_to_emu_2250_300 : px_to_emu 2250 300 = 6858000 := by
  have hk : ((2250 : ℤ) : ℚ) / ((300 : ℤ) : ℚ) = ((15 : ℤ) : ℚ) * pow2z (-1) := by
    rw [pow2z_eq]
    norm_num
  have hv : ((2250 : ℤ) : ℚ) / ((300 : ℤ) : ℚ) * 914400 = ((6858000 : ℤ) : ℚ) := by
    rw [hk, pow2z_eq]
    norm_num
  have hdiv : roundNE (((2250 : ℤ) : ℚ) / ((300 : ℤ) : ℚ))
      = ((2250 : ℤ) : ℚ) / ((300 : ℤ) : ℚ) := by
    rw [hk, roundNE_mul_pow2z, roundNE_intCast (by norm_num)]
  have hmul : roundNE (((2250 : ℤ) : ℚ) / ((300 : ℤ) : ℚ) * 914400)
      = ((2250 : ℤ) : ℚ) / ((300 : ℤ) : ℚ) * 914400 := by
    rw [hv, roundNE_intCast (by norm_num)]
  rw [px_to_emu_of_exact (by norm_num) (by norm_num) hdiv hmul, hv, Int.floor_intCast]

theorem px_to_emu_zero {dpi : ℤ} : px_to_emu 0 dpi = 0 := by
  simp only [px_to_emu, Int.cast_zero, zero_div, roundNE_zero, zero_mul]
  rw [show (0 : ℚ) = ((0 : ℤ) : ℚ) by norm_num, pyTrunc_intCast]

theorem px_to_emu_self {dpi : ℤ} (hd : 0 < dpi) : px_to_emu dpi dpi = 914400 := by
  have hk : ((dpi : ℤ) : ℚ) / ((dpi : ℤ) : ℚ) = ((1 : ℤ) : ℚ) := by
    rw [div_self (by exact_mod_cast hd.ne' : ((dpi : ℤ) : ℚ) ≠ 0)]
    norm_num
  have hv : ((dpi : ℤ) : ℚ) / ((dpi : ℤ) : ℚ) * 914400 = ((914400 : ℤ) : ℚ) := by
    rw [hk]
    norm_num
  have hdiv : roundNE (((dpi : ℤ) : ℚ) / ((dpi : ℤ) : ℚ))
      = ((dpi : ℤ) : ℚ) / ((dpi : ℤ) : ℚ) := by
    rw [hk, roundNE_intCast (by norm_num)]
  have hmul : roundNE (((dpi : ℤ) : ℚ) / ((dpi : ℤ) : ℚ) * 914400)
      = ((dpi : ℤ) : ℚ) / ((dpi : ℤ) : ℚ) * 914400 := by
    rw [hv, roundNE_intCast (by norm_num)]
  rw [px_to_emu_of_exact hd.le hd hdiv hmul, hv, Int.floor_intCast]

theorem groupIntoLines_sorted (words : List Word) :
    ∀ line ∈ groupIntoLines words, line.Sorted leftLE := by
  unfold groupIntoLines
  cases sortedByTopLeft words with
  | nil => intro line h; cases h
  | cons w0 rest => exact lineWalk_sorted rest [w0] w0.top

end NotebookConverter

namespace NotebookConverter

/-! ## Claim theorems -/

/-- C4 counterexample: at `pixels = 13`, `dpi = 3` the code's float
arithmetic yields `px_to_emu 13 3 = 3962399`, while the floor of the exact
rational `13 / 3 * 914400` is `3962400` — the claimed identity fails. -/
theorem c4_float_deviates_from_exact_floor :
    px_to_emu 13 3 = 3962399
    ∧ ⌊(13 : ℚ) / 3 * 914400⌋ = 3962400
    ∧ px_to_emu 13 3 ≠ ⌊(13 : ℚ) / 3 * 914400⌋ := by
  have hfl : ⌊(13 : ℚ) / 3 * 914400⌋ = 3962400 := by
    rw [Int.floor_eq_iff]
    constructor <;> norm_num
  refine ⟨px_to_emu_13_3, hfl, ?_⟩
  rw [px_to_emu_13_3, hfl]
  norm_num

/-- C4 (amended): `px_to_emu` and `emu_to_px` compute
`int(pixels / dpi * 914400)` and `int(units / 914400 * dpi)` in binary64
floating-point; whenever neither float operation rounds (and, for
`emu_to_px`, the dpi is exactly representable), the result equals the floor
of the exact rational value.  Without those exactness conditions the result
can differ from the exact floor (see the counterexample). -/
theorem c4_exact_floor_under_exact_float_ops :
    (∀ p d : ℤ, 0 ≤ p → 0 < d →
      roundNE ((p : ℚ) / (d : ℚ)) = (p : ℚ) / (d : ℚ) →
      roundNE ((p : ℚ) / (d : ℚ) * 914400) = (p : ℚ) / (d : ℚ) * 914400 →
      px_to_emu p d = ⌊(p : ℚ) / (d : ℚ) * 914400⌋)
    ∧ (∀ u d : ℤ, 0 ≤ u → 0 < d → d < 2 ^ 53 →
      roundNE ((u : ℚ) / 914400) = (u : ℚ) / 914400 →
      roundNE ((u : ℚ) / 914400 * (d : ℚ)) = (u : ℚ) / 914400 * (d : ℚ) →
      emu_to_px u d = ⌊(u : ℚ) / 914400 * (d : ℚ)⌋) :=
  ⟨fun _ _ hp hd h1 h2 => px_to_emu_of_exact hp hd h1 h2,
   fun _ _ hu hd hd53 h1 h2 => emu_to_px_of_exact hu hd hd53 h1 h2⟩

/-- C4 witness: the amended theorem applied at `px_to_emu 300 300` and
`emu_to_px 914400 300`. -/
theorem c4_exact_floor_witness :
    px_to_emu 300 300 = 914400 ∧ emu_to_px 914400 300 = 300 := by
  constructor
  · have hk : ((300 : ℤ) : ℚ) / ((300 : ℤ) : ℚ) = ((1 : ℤ) : ℚ) := by norm_num
    have hv : ((300 : ℤ) : ℚ) / ((300 : ℤ) : ℚ) * 914400 = ((914400 : ℤ) : ℚ) := by
      rw [hk]
      norm_num
    have h := c4_exact_floor_under_exact_float_ops.1 300 300 (by norm_num) (by norm_num)
      (by rw [hk, roundNE_intCast (by norm_num)])
      (by rw [hv, roundNE_intCast (by norm_num)])
    rw [h, hv, Int.floor_intCast]
  · have hk : ((914400 : ℤ) : ℚ) / (914400 : ℚ) = ((1 : ℤ) : ℚ) := by norm_num
    have hv : ((914400 : ℤ) : ℚ) / (914400 : ℚ) * ((300 : ℤ) : ℚ)
        = ((300 : ℤ) : ℚ) := by
      rw [hk]
      norm_num
    have h := c4_exact_floor_under_exact_float_ops.2 914400 300 (by norm_num)
      (by norm_num) (by norm_num)
      (by rw [hk, roundNE_intCast (by norm_num)])
      (by rw [hv, roundNE_intCast (by norm_num)])
    rw [h, hv, Int.floor_intCast]

/-- C8: exactness at whole-inch boundaries — `px_to_emu 0 dpi = 0` and
`px_to_emu dpi dpi = 914400` for every positive dpi, and
`calculate_slide_dimensions 3000 2250 300 = (9144000, 6858000)` exactly,
where the slide dimensions apply `px_to_emu` independently to width and
height. -/
theorem c8_whole_inch_exactness (dpi : ℤ) (hd : 0 < dpi) :
    px_to_emu 0 dpi = 0
    ∧ px_to_emu dpi dpi = 914400
    ∧ calculate_slide_dimensions 3000 2250 300
        = (px_to_emu 3000 300, px_to_emu 2250 300)
    ∧ calculate_slide_dimensions 3000 2250 300 = (9144000, 6858000) := by
  refine ⟨px_to_emu_zero, px_to_emu_self hd, rfl, ?_⟩
  unfold calculate_slide_dimensions
  rw [px_to_emu_3000_300, px_to_emu_2250_300]

/-- C8 witness: the theorem applied at `dpi = 300`. -/
theorem c8_whole_inch_witness :
    px_to_emu 0 300 = 0 ∧ px_to_emu 300 300 = 914400 := by
  have h := c8_whole_inch_exactness 300 (by norm_num)
  exact ⟨h.1, h.2.1⟩

/-- C9: `get_aspect_ratio` fails with the domain error exactly when
`height = 0` (for every width), and for nonzero height returns the
(correctly rounded) quotient `width / height` without raising. -/
theorem c9_aspect_ratio_domain (w h : ℤ) :
    (get_aspect_ratio w h = .error "Height cannot be zero" ↔ h = 0)
    ∧ (h ≠ 0 → get_aspect_ratio w h = .ok (roundNE ((w : ℚ) / (h : ℚ)))) := by
  constructor
  · constructor
    · intro herr
      by_contra hh
      rw [get_aspect_ratio, if_neg hh] at herr
      exact Except.noConfusion herr
    · intro hh
      rw [get_aspect_ratio, if_pos hh]
  · intro hh
    rw [get_aspect_ratio, if_neg hh]

/-- C9 witness: the theorem applied at `(5, 0)` and `(6, 3)`. -/
theorem c9_aspect_ratio_witness :
    get_aspect_ratio 5 0 = .error "Height cannot be zero"
    ∧ get_aspect_ratio 6 3 = .ok 2 := by
  constructor
  · exact (c9_aspect_ratio_domain 5 0).1.mpr rfl
  · rw [(c9_aspect_ratio_domain 6 3).2 (by norm_num)]
    have hk : ((6 : ℤ) : ℚ) / ((3 : ℤ) : ℚ) = ((2 : ℤ) : ℚ) := by norm_num
    rw [hk, roundNE_intCast (by norm_num)]
    norm_num

/-- C10: rescaling between equal resolutions is the identity — for every
`x, y, width, height` with magnitude below `2^53` (hence exactly
representable) and every positive dpi, `scale_coordinates` at
`source_dpi = target_dpi = dpi` returns the inputs unchanged. -/
theorem c10_rescale_identity (x y w h dpi : ℤ)
    (hx : |x| < 2 ^ 53) (hy : |y| < 2 ^ 53) (hw : |w| < 2 ^ 53)
    (hh : |h| < 2 ^ 53) (hd : 0 < dpi) :
    scale_coordinates x y w h dpi dpi = (x, y, w, h) := by
  have hscale : roundNE (((dpi : ℤ) : ℚ) / ((dpi : ℤ) : ℚ)) = (1 : ℚ) := by
    rw [div_self (by exact_mod_cast hd.ne' : ((dpi : ℤ) : ℚ) ≠ 0)]
    rw [show (1 : ℚ) = ((1 : ℤ) : ℚ) by norm_num, roundNE_intCast (by norm_num)]
  have comp : ∀ v : ℤ, |v| < 2 ^ 53 → pyTrunc (roundNE (pyFloat v * 1)) = v := by
    intro v hv
    rw [mul_one, pyFloat_small hv, roundNE_intCast hv, pyTrunc_intCast]
  simp only [scale_coordinates, hscale]
  rw [comp x hx, comp y hy, comp w hw, comp h hh]

/-- C10 witness: the theorem applied at `(5, 6, 7, 8)` and `dpi = 300`. -/
theorem c10_rescale_identity_witness :
    scale_coordinates 5 6 7 8 300 300 = (5, 6, 7, 8) :=
  c10_rescale_identity 5 6 7 8 300 (by norm_num) (by norm_num) (by norm_num)
    (by norm_num) (by norm_num)

/-- C1: `_group_into_lines` implements the spec's anchor-based policy
exactly — it equals the spec-side grouper (sort by `(top, left)`, walk with
the anchor = `top` of the first word of the line being built, a word joins
iff `|top - anchor| < 10`, finished lines re-sorted by `left`, output in
walk order); every output line has non-decreasing `left` values; and the
two-word scenario `Hello/World` yields one line ordered
`["Hello", "World"]`. -/
theorem c1_line_grouper_anchor_policy (words : List Word) :
    LINE_MERGE_THRESHOLD_PX = 10
    ∧ groupIntoLines words = specLineGrouper LINE_MERGE_THRESHOLD_PX words
    ∧ (∀ line ∈ groupIntoLines words, line.Sorted leftLE)
    ∧ groupIntoLines
        [⟨"Hello", 0, 0, 50, 20, 90⟩, ⟨"World", 60, 2, 50, 20, 88⟩]
        = [[⟨"Hello", 0, 0, 50, 20, 90⟩, ⟨"World", 60, 2, 50, 20, 88⟩]] :=
  ⟨rfl, groupIntoLines_eq_spec words, groupIntoLines_sorted words, by decide⟩

/-- C1 witness: the theorem applied to the concrete two-word scenario. -/
theorem c1_line_grouper_anchor_policy_witness :
    groupIntoLines [⟨"Hello", 0, 0, 50, 20, 90⟩, ⟨"World", 60, 2, 50, 20, 88⟩]
      = specLineGrouper LINE_MERGE_THRESHOLD_PX
          [⟨"Hello", 0, 0, 50, 20, 90⟩, ⟨"World", 60, 2, 50, 20, 88⟩] :=
  (c1_line_grouper_anchor_policy
    [⟨"Hello", 0, 0, 50, 20, 90⟩, ⟨"World", 60, 2, 50, 20, 88⟩]).2.1

/-- C2: `_group_into_paragraphs` equals the spec-side walk (merge a line
into the current paragraph iff `gap < avgHeight · 1.5`, close the
accumulated paragraph otherwise, always close the final one) followed by
merging each chunk into a `TextBlock`; and for lines of nonnegative word
heights a negative gap always satisfies `gap < threshold`, hence always
merges. -/
theorem c2_paragraph_gap_policy (lines : List (List Word))
    (hh : ∀ l ∈ lines, ∀ w ∈ l, 0 ≤ w.height) :
    PARAGRAPH_GAP_MULTIPLIER = 3 / 2
    ∧ groupIntoParagraphs lines =
      (specSplitParagraphs PARAGRAPH_GAP_MULTIPLIER lines).map mergeLinesToBlock
    ∧ ∀ prevLine ∈ lines, ∀ currLine : List Word,
        lineGap prevLine currLine < 0 →
        (lineGap prevLine currLine : ℚ) < parThreshold prevLine := by
  refine ⟨rfl, groupIntoParagraphs_eq_spec lines, ?_⟩
  intro prev hprev curr hgap
  have hsum : (0 : ℤ) ≤ (prev.map Word.height).sum := by
    apply List.sum_nonneg
    intro x hx
    obtain ⟨w, hwmem, rfl⟩ := List.mem_map.mp hx
    exact hh prev hprev w hwmem
  have hth : 0 ≤ parThreshold prev := by
    unfold parThreshold avgHeight PARAGRAPH_GAP_MULTIPLIER
    apply mul_nonneg
    · apply div_nonneg
      · exact_mod_cast hsum
      · positivity
    · norm_num
  have hgq : (lineGap prev curr : ℚ) < 0 := by exact_mod_cast hgap
  linarith

/-- C2 witness: the theorem applied to the spec's two-line scenario
(`avgHeight = 20`, threshold `30`, previous bottom `20`, current top `60`,
so the gap `40` splits the lines into two blocks). -/
theorem c2_paragraph_gap_policy_witness :
    groupIntoParagraphs [[⟨"a", 0, 0, 10, 20, 90⟩], [⟨"b", 0, 60, 10, 20, 88⟩]] =
      (specSplitParagraphs PARAGRAPH_GAP_MULTIPLIER
        [[⟨"a", 0, 0, 10, 20, 90⟩], [⟨"b", 0, 60, 10, 20, 88⟩]]).map
        mergeLinesToBlock :=
  (c2_paragraph_gap_policy
    [[⟨"a", 0, 0, 10, 20, 90⟩], [⟨"b", 0, 60, 10, 20, 88⟩]] (by decide)).2.1

/-- C3: merging a non-empty list of non-empty lines yields a `TextBlock`
whose text is the words of each line joined by single spaces and the lines
joined by a line break; whose bounding box contains every constituent word
and attains its four edges at words (tightest box), with nonnegative width
and height (given nonnegative word dimensions); and whose confidence is the
unweighted mean over all constituent words (flat, not per-line). -/
theorem c3_merge_block_tightest_box (lines : List (List Word)) (hne : lines ≠ [])
    (hl : ∀ l ∈ lines, l ≠ [])
    (hw : ∀ l ∈ lines, ∀ w ∈ l, 0 ≤ w.width ∧ 0 ≤ w.height) :
    (mergeLinesToBlock lines).text =
        String.intercalate "\n"
          (lines.map fun line => String.intercalate " " (line.map Word.text))
    ∧ (∀ w ∈ lines.flatten,
        (mergeLinesToBlock lines).left ≤ w.left
        ∧ (mergeLinesToBlock lines).top ≤ w.top
        ∧ w.left + w.width
            ≤ (mergeLinesToBlock lines).left + (mergeLinesToBlock lines).width
        ∧ w.top + w.height
            ≤ (mergeLinesToBlock lines).top + (mergeLinesToBlock lines).height)
    ∧ ((∃ w ∈ lines.flatten, w.left = (mergeLinesToBlock lines).left)
        ∧ (∃ w ∈ lines.flatten, w.top = (mergeLinesToBlock lines).top)
        ∧ (∃ w ∈ lines.flatten, w.left + w.width
            = (mergeLinesToBlock lines).left + (mergeLinesToBlock lines).width)
        ∧ (∃ w ∈ lines.flatten, w.top + w.height
            = (mergeLinesToBlock lines).top + (mergeLinesToBlock lines).height))
    ∧ (0 ≤ (mergeLinesToBlock lines).width ∧ 0 ≤ (mergeLinesToBlock lines).height)
    ∧ (mergeLinesToBlock lines).confidence
        = (lines.flatten.map Word.conf).sum / (lines.flatten.length : ℚ) := by
  have hleft : (mergeLinesToBlock lines).left
      = pyMin (lines.flatten.map Word.left) := rfl
  have htop : (mergeLinesToBlock lines).top
      = pyMin (lines.flatten.map Word.top) := rfl
  have hright : (mergeLinesToBlock lines).left + (mergeLinesToBlock lines).width
      = pyMax (lines.flatten.map fun w => w.left + w.width) := by
    show pyMin (lines.flatten.map Word.left)
        + (pyMax (lines.flatten.map fun w => w.left + w.width)
            - pyMin (lines.flatten.map Word.left)) = _
    ring
  have hbottom : (mergeLinesToBlock lines).top + (mergeLinesToBlock lines).height
      = pyMax (lines.flatten.map fun w => w.top + w.height) := by
    show pyMin (lines.flatten.map Word.top)
        + (pyMax (lines.flatten.map fun w => w.top + w.height)
            - pyMin (lines.flatten.map Word.top)) = _
    ring
  have hex : ∃ w, w ∈ lines.flatten := by
    cases lines with
    | nil => exact absurd rfl hne
    | cons l0 rest =>
      have h0 : l0 ≠ [] := hl l0 (List.mem_cons_self l0 rest)
      cases l0 with
      | nil => exact absurd rfl h0
      | cons w0 t => exact ⟨w0, by simp⟩
  have hflatne : lines.flatten ≠ [] := by
    obtain ⟨w0, hw0⟩ := hex
    intro hcon
    rw [hcon] at hw0
    cases hw0
  refine ⟨rfl, ?_, ?_, ?_, rfl⟩
  · intro w hwmem
    refine ⟨?_, ?_, ?_, ?_⟩
    · rw [hleft]
      exact pyMin_le (List.mem_map_of_mem Word.left hwmem)
    · rw [htop]
      exact pyMin_le (List.mem_map_of_mem Word.top hwmem)
    · rw [hright]
      exact le_pyMax (List.mem_map_of_mem (fun w => w.left + w.width) hwmem)
    · rw [hbottom]
      exact le_pyMax (List.mem_map_of_mem (fun w => w.top + w.height) hwmem)
  · have hmapne : ∀ (f : Word → ℤ), lines.flatten.map f ≠ [] := by
      intro f hcon
      exact hflatne (List.map_eq_nil_iff.mp hcon)
    refine ⟨?_, ?_, ?_, ?_⟩
    · obtain ⟨w, hwmem, heq⟩ := List.mem_map.mp (pyMin_mem (hmapne Word.left))
      exact ⟨w, hwmem, by rw [hleft, heq]⟩
    · obtain ⟨w, hwmem, heq⟩ := List.mem_map.mp (pyMin_mem (hmapne Word.top))
      exact ⟨w, hwmem, by rw [htop, heq]⟩
    · obtain ⟨w, hwmem, heq⟩ :=
        List.mem_map.mp (pyMax_mem (hmapne fun w => w.left + w.width))
      exact ⟨w, hwmem, by rw [hright, heq]⟩
    · obtain ⟨w, hwmem, heq⟩ :=
        List.mem_map.mp (pyMax_mem (hmapne fun w => w.top + w.height))
      exact ⟨w, hwmem, by rw [hbottom, heq]⟩
  · obtain ⟨w0, hw0⟩ := hex
    obtain ⟨l0, hl0, hw0l⟩ := List.mem_flatten.mp hw0
    obtain ⟨hww, hwh⟩ := hw l0 hl0 w0 hw0l
    constructor
    · have h1 : pyMin (lines.flatten.map Word.left) ≤ w0.left :=
        pyMin_le (List.mem_map_of_mem Word.left hw0)
      have h2 : w0.left + w0.width
          ≤ pyMax (lines.flatten.map fun w => w.left + w.width) :=
        le_pyMax (List.mem_map_of_mem (fun w => w.left + w.width) hw0)
      have hwidth : (mergeLinesToBlock lines).width
          = pyMax (lines.flatten.map fun w => w.left + w.width)
            - pyMin (lines.flatten.map Word.left) := rfl
      omega
    · have h1 : pyMin (lines.flatten.map Word.top) ≤ w0.top :=
        pyMin_le (List.mem_map_of_mem Word.top hw0)
      have h2 : w0.top + w0.height
          ≤ pyMax (lines.flatten.map fun w => w.top + w.height) :=
        le_pyMax (List.mem_map_of_mem (fun w => w.top + w.height) hw0)
      have hheight : (mergeLinesToBlock lines).height
          = pyMax (lines.flatten.map fun w => w.top + w.height)
            - pyMin (lines.flatten.map Word.top) := rfl
      omega

/-- C3 witness: the theorem applied to one line of two words. -/
theorem c3_merge_block_witness :
    0 ≤ (mergeLinesToBlock
          [[⟨"Hello", 0, 0, 50, 20, 90⟩, ⟨"World", 60, 2, 50, 20, 88⟩]]).width
    ∧ 0 ≤ (mergeLinesToBlock
          [[⟨"Hello", 0, 0, 50, 20, 90⟩, ⟨"World", 60, 2, 50, 20, 88⟩]]).height :=
  (c3_merge_block_tightest_box
    [[⟨"Hello", 0, 0, 50, 20, 90⟩, ⟨"World", 60, 2, 50, 20, 88⟩]]
    (by decide) (by decide) (by decide)).2.2.2.1

/-- C5 counterexample: a collection whose `conf` key is missing makes
`_extract_words` raise `KeyError` instead of dropping the record — so the
word filter is not total on malformed collections. -/
theorem c5_filter_raises_on_malformed :
    extractWords badData = .error .keyError
    ∧ extractWords badData ≠ .ok [] := by
  constructor
  · rfl
  · intro h
    rw [show extractWords badData = Except.error PyErr.keyError from rfl] at h
    exact Except.noConfusion h

/-- C5 (amended): on a *well-formed* collection (all six parallel field
lists present, aligned and convertible) the word filter never raises and
returns exactly the filtered records; but a missing or malformed field makes
it raise a `KeyError`/`IndexError`/`ValueError` instead of dropping the
record (see the counterexample).  The grouping stages are total and map
empty input to empty output. -/
theorem c5_filter_total_on_wellformed (rs : List RawRecord) :
    extractWords (ofRecords rs) = .ok (filterWords rs)
    ∧ groupIntoLines [] = []
    ∧ groupIntoParagraphs [] = []
    ∧ extractWords (ofRecords []) = .ok [] :=
  ⟨extractWords_ofRecords rs, rfl, rfl, extractWords_ofRecords []⟩

/-- C5 witness: the amended theorem applied to a concrete one-record
collection, with the filter output evaluated. -/
theorem c5_filter_total_on_wellformed_witness :
    extractWords (ofRecords [⟨" low ", 1, 2, 3, 4, 10⟩]) = .ok [] := by
  rw [(c5_filter_total_on_wellformed [⟨" low ", 1, 2, 3, 4, 10⟩]).1]
  exact congrArg Except.ok (by decide)

/-- C6: on a well-formed collection the word filter keeps a record iff its
text is non-empty after stripping, its confidence is not the structural
sentinel `-1`, and its confidence is not below the threshold `40`; each
surviving record retains its (stripped) text, box and confidence — this is
`specFilterWords`, written from the spec's words. -/
theorem c6_word_filter_keep_iff (rs : List RawRecord) :
    OCR_CONFIDENCE_THRESHOLD = 40
    ∧ extractWords (ofRecords rs) = .ok (specFilterWords rs) := by
  refine ⟨rfl, ?_⟩
  rw [extractWords_ofRecords, filterWords_eq_spec]

/-- C6 witness: the theorem applied to a one-record collection, with the
filter output evaluated. -/
theorem c6_word_filter_keep_iff_witness :
    extractWords (ofRecords [⟨"Hello", 0, 0, 50, 20, 90⟩])
      = .ok [⟨"Hello", 0, 0, 50, 20, 90⟩] := by
  rw [(c6_word_filter_keep_iff [⟨"Hello", 0, 0, 50, 20, 90⟩]).2]
  exact congrArg Except.ok (by decide)

/-- C7: for every non-empty word list the line grouper preserves every
input word exactly once across all produced lines — the concatenation of
the output lines is a permutation of (hence multiset-equal to) the input. -/
theorem c7_line_grouper_preserves_words (words : List Word) (_h : words ≠ []) :
    List.Perm (groupIntoLines words).flatten words :=
  groupIntoLines_flatten_perm words

/-- C7 witness: the theorem applied to a singleton word list. -/
theorem c7_line_grouper_preserves_words_witness :
    List.Perm (groupIntoLines [⟨"Hello", 0, 0, 50, 20, 90⟩]).flatten
      [⟨"Hello", 0, 0, 50, 20, 90⟩] :=
  c7_line_grouper_preserves_words [⟨"Hello", 0, 0, 50, 20, 90⟩] (by decide)

end NotebookConverter
